import Mathlib

set_option maxHeartbeats 1600000
set_option maxRecDepth 100000

/-!
Verification development for the gbc-tile-convert pipeline (src/main.c).

The definitions below are a shallow embedding of the C program:
machine integers become `Nat` (with explicit `% 256`, `% 512`, `% 8`
where a uint8 or a bitfield truncates) or `Int` where the C code uses a
signed int that can be `-1`; fixed-size byte arrays become `List Nat`;
functions that mutate a caller's array return the new value alongside
their result.
-/

/-- C `hex_to_gb` (main.c:194-201): quantize a 32-bit truecolor pixel to the 15-bit native
colour `r ||| (g <<< 5) ||| (b <<< 10)`, taking bits 3..7 of each 8-bit channel byte. -/
def hex_to_gb (hex : Nat) : Nat :=
  ((hex >>> 3) &&& 0x1F) ||| (((hex >>> 11) &&& 0x1F) <<< 5) ||| (((hex >>> 19) &&& 0x1F) <<< 10)

/-- C `hex_to_palette` (main.c:184-192): convert raw colours to little-endian byte pairs. -/
def hex_to_palette (colours : List Nat) : List (Nat × Nat) :=
  colours.map (fun h => (hex_to_gb h &&& 0xFF, (hex_to_gb h >>> 8) &&& 0xFF))

/-- C `colour_in_palette` (main.c:203-214): find the pixel's native colour among the
palette's four little-endian byte pairs (the loop `for i in 0..3` unrolled); `-1` when
absent. -/
def colour_in_palette (hex : Nat) (palette : List Nat) : Int :=
  if palette.getD 0 0 = (hex_to_gb hex &&& 0xFF) ∧ palette.getD 1 0 = (hex_to_gb hex >>> 8) then 0
  else if palette.getD 2 0 = (hex_to_gb hex &&& 0xFF) ∧ palette.getD 3 0 = (hex_to_gb hex >>> 8) then 1
  else if palette.getD 4 0 = (hex_to_gb hex &&& 0xFF) ∧ palette.getD 5 0 = (hex_to_gb hex >>> 8) then 2
  else if palette.getD 6 0 = (hex_to_gb hex &&& 0xFF) ∧ palette.getD 7 0 = (hex_to_gb hex >>> 8) then 3
  else -1

/-- C `c_idx & 1` on a possibly negative int: two's complement bit 0, i.e. the
nonnegative remainder mod 2. -/
def intBit0 (c : Int) : Nat := (c % 2).toNat

/-- C `(c_idx & 2) >> 1` on a possibly negative int: two's complement bit 1, i.e. bit 1 of
the nonnegative remainder mod 4. -/
def intBit1 (c : Int) : Nat := ((c % 4) / 2).toNat

/-- One row of the tile encoder (main.c:119-133): the two plane bytes built MSB-first
over `x = 0..7`, with the uint8 wrap on `lower <<= 1` / `upper <<= 1` made explicit. -/
def encode_row (c : Nat → Int) : Nat × Nat :=
  (List.range 8).foldl
    (fun lu x => (((lu.1 <<< 1) % 256) ||| intBit0 (c x), ((lu.2 <<< 1) % 256) ||| intBit1 (c x)))
    (0, 0)

/-- The packing fold of a single plane byte, used to reason about `encode_row`. -/
def pack (bs : List Nat) : Nat := bs.foldl (fun a b => ((a <<< 1) % 256) ||| b) 0

/-- An 8-element list given by its entries, used to reason about `encode_row`. -/
def list8 (h : Nat → Nat) : List Nat := [h 0, h 1, h 2, h 3, h 4, h 5, h 6, h 7]

/-- The 16-byte encoding of one 8×8 block (main.c:113-133): per row `y` the low plane byte
then the high plane byte, each pixel looked up in the block's assigned palette. -/
def encode_tile (px : Nat → Nat → Nat) (palette : List Nat) : List Nat :=
  List.flatten ((List.range 8).map (fun y =>
    [(encode_row (fun x => colour_in_palette (px y x) palette)).1,
     (encode_row (fun x => colour_in_palette (px y x) palette)).2]))

/-- Spec-side decoder for the round-trip property: read pixel `(x, y)`'s 2-bit index back
out of the 16 tile bytes and look it up in the palette's little-endian byte pairs. -/
def decode_pixel (data palette : List Nat) (x y : Nat) : Nat :=
  let i := ((data.getD (2 * y) 0 >>> (7 - x)) &&& 1) +
    2 * ((data.getD (2 * y + 1) 0 >>> (7 - x)) &&& 1)
  palette.getD (2 * i) 0 + 256 * palette.getD (2 * i + 1) 0

/-- The channel sum `cmp` (main.c:246-260) computes for one little-endian byte pair;
note the low green mask is `0x70` in the source, so bit 7 of the low byte (green bit 2)
never enters the sum. -/
def cmp_sum (lo hi : Nat) : Nat :=
  (lo &&& 0x1F) + ((hi &&& 0x7C) >>> 2) + (((lo &&& 0x70) >>> 5) ||| ((hi &&& 0x03) <<< 3))

/-- C `cmp` (main.c:246-260), the comparator handed to qsort by `sort_palette`: the sign of
the difference of the two channel sums (the uint32 subtraction the C code performs,
reinterpreted as an int, equals this difference for these small sums). -/
def cmp_qsort (a b : Nat × Nat) : Int := (cmp_sum a.1 a.2 : Int) - (cmp_sum b.1 b.2 : Int)

/-- Decoded `R+G+B` sum of a 15-bit native colour: the quantity §4.3 of the spec says the
palette is sorted by. -/
def gb_sum (c : Nat) : Nat := (c &&& 0x1F) + ((c >>> 5) &&& 0x1F) + ((c >>> 10) &&& 0x1F)

/-- One slot attempt inside `palette_in_list` (main.c:216-244): walk the block's colours,
each either found among the slot's stored colours (`k < 4 && k < c_in_p`) or appended when
fewer than 4 colours are stored; a miss against a full slot rejects the slot, but colours
already appended remain stored (the C code does not roll back). -/
def slot_try (cols : List (Nat × Nat)) (slot : List (Nat × Nat)) : Bool × List (Nat × Nat) :=
  match cols with
  | [] => (true, slot)
  | c :: rest =>
    if c ∈ slot.take 4 then slot_try rest slot
    else if slot.length < 4 then slot_try rest (slot ++ [c])
    else (false, slot)

/-- The slot scan of `palette_in_list` (main.c:218-242): slots tried in order, first
accommodating slot's index returned; every tried slot keeps its mutations. -/
def palette_scan (cols : List (Nat × Nat)) :
    List (List (Nat × Nat)) → Option Nat × List (List (Nat × Nat))
  | [] => (none, [])
  | s :: rest =>
    if (slot_try cols s).1 then (some 0, (slot_try cols s).2 :: rest)
    else
      ((palette_scan cols rest).1.map (fun i => i + 1),
       (slot_try cols s).2 :: (palette_scan cols rest).2)

/-- C `palette_in_list` (main.c:216-244): the found slot index, or `-1` when no slot can
accommodate the block's colours; the slot list is mutated in place. -/
def palette_in_list (cols : List (Nat × Nat)) (slots : List (List (Nat × Nat))) :
    Int × List (List (Nat × Nat)) :=
  match palette_scan cols slots with
  | (some i, slots2) => ((i : Int), slots2)
  | (none, slots2) => (-1, slots2)

/-- main.c:106 `tiles[32 * ty + tx].palette_idx = p_idx`: storing an int into the 3-bit
unsigned bitfield reduces it mod 8 in two's complement, so `-1` becomes `7`. -/
def palette_idx_store (p : Int) : Nat := (p.emod 8).toNat

/-- C `MAX_TILES` (main.c:19). -/
def MAX_TILES : Nat := 1024

/-- C `MAX_PALETTES` (main.c:20). -/
def MAX_PALETTES : Nat := 8

/-- A `struct tile` (main.c:29-34): 9-bit `data_idx`, 3-bit `palette_idx`, two flip flags.
The bitfield widths are enforced at every assignment site by explicit `% 512` / `% 8`. -/
structure TileRec where
  data_idx : Nat
  palette_idx : Nat
  hflip : Bool
  vflip : Bool
deriving DecidableEq

/-- C `tiles_equal` (main.c:312-320): byte-wise comparison of two 16-byte tiles. -/
def tiles_equal (a b : List Nat) : Bool := decide (a = b)

/-- One `for b in 0..3` iteration of `flip_tile_horizontal` (main.c:324-332): swap bits
`b` and `7 - b` of a byte; the C masks `&= ~(1 << b)` act within the uint8 range, written
here as `&&& (255 ^^^ (1 <<< b))`. -/
def flip_byte_step (v b : Nat) : Nat :=
  let tmp1 := (v >>> b) &&& 1
  let tmp2 := (v >>> (7 - b)) &&& 1
  let v1 := v &&& (255 ^^^ (1 <<< b))
  let v2 := v1 &&& (255 ^^^ (1 <<< (7 - b)))
  (v2 ||| (tmp1 <<< (7 - b))) ||| (tmp2 <<< b)

/-- The full bit reversal of one byte performed by `flip_tile_horizontal`. -/
def flip_byte (v : Nat) : Nat := [0, 1, 2, 3].foldl flip_byte_step v

/-- C `flip_tile_horizontal` (main.c:322-334): reverse the bit order of each tile byte. -/
def flip_tile_horizontal (t : List Nat) : List Nat := t.map flip_byte

/-- C `flip_tile_vertical` (main.c:336-346): the 16 bytes viewed as 8 little-endian uint16
row pairs, their order reversed; byte `i` of the result is byte `2*(7 - i/2) + i%2` of the
input. -/
def flip_tile_vertical (t : List Nat) : List Nat :=
  (List.range 16).map (fun i => t.getD (2 * (7 - i / 2) + i % 2) 0)

/-- The four comparisons `tile_in_list` (main.c:274-304) makes against one stored entry,
in source order, `tmp` starting as a fresh copy of the candidate each iteration:
exact, after `flip_tile_horizontal`, after a further horizontal and a vertical flip
(recording vflip only), and after one more horizontal flip (recording both). -/
def tile_match (tile e : List Nat) : Option (Bool × Bool) :=
  if tiles_equal tile e then some (false, false)
  else
    let tmp1 := flip_tile_horizontal tile
    if tiles_equal tmp1 e then some (true, false)
    else
      let tmp2 := flip_tile_vertical (flip_tile_horizontal tmp1)
      if tiles_equal tmp2 e then some (false, true)
      else
        let tmp3 := flip_tile_horizontal tmp2
        if tiles_equal tmp3 e then some (true, true)
        else none

/-- The scan loop of `tile_in_list` (main.c:274-304): first entry matching under one of
the four relations wins; the returned index counts from the start of the scanned list. -/
def tile_search (tile : List Nat) : List (List Nat) → Option (Nat × Bool × Bool)
  | [] => none
  | e :: rest =>
    match tile_match tile e with
    | some hv => some (0, hv.1, hv.2)
    | none => (tile_search tile rest).map (fun r => (r.1 + 1, r.2))

/-- The raw table index `tile_in_list` computes before the 9-bit bitfield narrows it:
the matched entry's index, or `n_tiles` when the candidate is appended. -/
def tile_raw_idx (tile : List Nat) (buf : List (List Nat)) (n_tiles : Nat) : Nat :=
  match tile_search tile (buf.take n_tiles) with
  | some r => r.1
  | none => n_tiles

/-- C `tile_in_list` (main.c:269-310): search the first `n_tiles` entries of the tile table;
when nothing matches, store the candidate at position `n_tiles`. Each `ret.data_idx`
assignment passes through the 9-bit bitfield, hence the explicit `% 512`. -/
def tile_in_list (tile : List Nat) (buf : List (List Nat)) (n_tiles : Nat) :
    TileRec × List (List Nat) :=
  match tile_search tile (buf.take n_tiles) with
  | some r => (⟨r.1 % 512, 0, r.2.1, r.2.2⟩, buf)
  | none => (⟨n_tiles % 512, 0, false, false⟩, buf.set n_tiles tile)

/-- The per-block colour collection loop of `main` (main.c:74-101): `colours` is the whole
4-element array — zero-initialised beyond the first entry, and the scan `px == colours[i]`
checks all four entries, so a pixel equal to `0` can match an unused zero slot. A fifth
required colour produces the error `(tx, ty, colours, px)`, the data printed before
`exit(EXIT_FAILURE)`. -/
def collect_go (tx ty : Nat) : List Nat → List Nat → Nat →
    Except (Nat × Nat × List Nat × Nat) (List Nat × Nat)
  | [], colours, n => Except.ok (colours, n)
  | px :: rest, colours, n =>
    if px ∈ colours then collect_go tx ty rest colours n
    else if n = 4 then Except.error (tx, ty, colours, px)
    else collect_go tx ty rest (colours.set n px) (n + 1)

/-- The whole 4-colour capacity check for one block (main.c:74-101), pixels given in
row-major order; `colours` starts as `{bitmap.data[base_idx]}` with zero fill and
`n_colours` as 1. -/
def block_scan (tx ty : Nat) (pxs : List Nat) :
    Except (Nat × Nat × List Nat × Nat) (List Nat × Nat) :=
  collect_go tx ty pxs [pxs.headD 0, 0, 0, 0] 1

/-- A partially filled `colours[4]` array: the collected colours followed by zero fill. -/
def slots4 (front : List Nat) : List Nat := front ++ List.replicate (4 - front.length) 0

/-- Claim C1: the spec says that when no palette slot can accommodate a block the system
reports a fatal error. In the code `palette_in_list` returns `-1` (here: with all 8 slots
full of other colours and a block colour matching none) and `main` stores it straight into
the 3-bit `palette_idx` bitfield, silently assigning palette index 7 and continuing. -/
theorem palette_overflow_silent :
    (palette_in_list ((hex_to_palette [0xFF, 0, 0, 0]).take 1)
      ((List.range 8).map (fun i => (List.range 4).map (fun k => (100 + 4 * i + k, 0))))).1
      = -1 ∧
    palette_idx_store (palette_in_list ((hex_to_palette [0xFF, 0, 0, 0]).take 1)
      ((List.range 8).map (fun i => (List.range 4).map (fun k => (100 + 4 * i + k, 0))))).1
      = 7 := by
  decide

/-- Claim C4: the spec says a pixel colour missing from the assigned palette must fail
loudly. In the code `colour_in_palette` returns `-1` and the encoder masks its bits
(`-1 & 1 = 1`, `(-1 & 2) >> 1 = 1`), silently emitting 2-bit index 3 for every such pixel:
a row of such pixels encodes as plane bytes `(255, 255)` with no error. -/
theorem encode_missing_colour_silent :
    colour_in_palette 0xFFFFFF [1, 0, 2, 0, 3, 0, 4, 0] = -1 ∧
    encode_row (fun _ => colour_in_palette 0xFFFFFF [1, 0, 2, 0, 3, 0, 4, 0]) = (255, 255) := by
  decide

/-- Claim C5: the spec says palettes are sorted ascending by the decoded R+G+B sum, but
`cmp` decodes green with mask `0x70` instead of `0xE0`, dropping green bit 2. For the
native colours `0x0080` (G = 4, decoded sum 4) and `0x0001` (R = 1, decoded sum 1), stored
as the byte pairs below, `cmp` orders `0x0080` strictly before `0x0001` although its
decoded sum is larger, so `sort_palette` does not sort by the decoded R+G+B sum. -/
theorem cmp_not_decoded_sum :
    cmp_qsort (0x80, 0x00) (0x01, 0x00) < 0 ∧ gb_sum 0x01 < gb_sum 0x80 := by
  decide

/-- Claim C7 counterexample: for the all-zero tile `T` (horizontally symmetric), the
mirrored candidate equals `T`, the exact-match branch fires first, and `tile_in_list`
returns hflip = false, not hflip = true as the claim states for every tile. -/
theorem dedupe_hflip_zero_tile :
    flip_tile_horizontal (List.replicate 16 0) = List.replicate 16 0 ∧
    (tile_in_list (flip_tile_horizontal (List.replicate 16 0)) [List.replicate 16 0] 1).1
      = ⟨0, 0, false, false⟩ := by
  decide

/-- Claim C8 counterexample: this 64-pixel block has 5 distinct raw truecolor values
(1, 0, 2, 3, 4), yet the capacity check succeeds, because the pixel value 0 matches a
zero-initialised unused entry of `colours[4]` and is never counted. -/
theorem block_scan_five_distinct_ok :
    ([1, 0, 2, 3, 4] ++ List.replicate 59 1).toFinset.card = 5 ∧
    block_scan 0 0 ([1, 0, 2, 3, 4] ++ List.replicate 59 1) = Except.ok ([1, 2, 3, 4], 4) :=
  ⟨by decide, rfl⟩

/-- Claim C3: the map cell's `data_idx` is the 9-bit narrowing of the deduplicator's raw
table index — always the raw index mod 512, and equal to the raw index exactly while that
index stays below 512 (the table buffer itself has `MAX_TILES = 1024` slots). -/
theorem data_idx_is_raw_mod_512 (tile : List Nat) (buf : List (List Nat)) (n : Nat) :
    (tile_in_list tile buf n).1.data_idx = tile_raw_idx tile buf n % 512 ∧
    (tile_raw_idx tile buf n < 512 →
      (tile_in_list tile buf n).1.data_idx = tile_raw_idx tile buf n) := by
  cases h : tile_search tile (buf.take n) with
  | none =>
    refine ⟨by simp [tile_in_list, tile_raw_idx, h], fun hlt => ?_⟩
    simp only [tile_raw_idx, h] at hlt
    simp [tile_in_list, tile_raw_idx, h, Nat.mod_eq_of_lt hlt]
  | some r =>
    refine ⟨by simp [tile_in_list, tile_raw_idx, h], fun hlt => ?_⟩
    simp only [tile_raw_idx, h] at hlt
    simp [tile_in_list, tile_raw_idx, h, Nat.mod_eq_of_lt hlt]

/-- Witness for `data_idx_is_raw_mod_512` at a concrete input. -/
theorem data_idx_is_raw_mod_512_witness :
    tile_raw_idx [] [] 0 < 512 ∧ (tile_in_list [] [] 0).1.data_idx = tile_raw_idx [] [] 0 :=
  ⟨by decide, (data_idx_is_raw_mod_512 [] [] 0).2 (by decide)⟩

/-- Claim C2: the spec says exceeding `MAX_TILES` unique tiles is a fatal, reported error.
The code has no capacity check at all: with the table at `MAX_TILES` entries and no match,
`tile_in_list` writes past the table (modelled by `List.set` at index `MAX_TILES`) and
returns `data_idx = 1024 % 512 = 0`, silently aliasing table entry 0. -/
theorem tile_table_overflow_silent (tile : List Nat) (buf : List (List Nat))
    (h : tile_search tile (buf.take MAX_TILES) = none) :
    (tile_in_list tile buf MAX_TILES).1 = ⟨0, 0, false, false⟩ ∧
    (tile_in_list tile buf MAX_TILES).2 = buf.set MAX_TILES tile := by
  simp only [MAX_TILES] at h ⊢
  simp [tile_in_list, h]

/-- Witness for `tile_table_overflow_silent`: a concrete full table of 1024 entries none
of which matches the candidate. -/
theorem tile_table_overflow_silent_witness :
    tile_search (List.replicate 16 1) ((List.replicate 1024 (List.replicate 16 0)).take MAX_TILES)
      = none ∧
    (tile_in_list (List.replicate 16 1) (List.replicate 1024 (List.replicate 16 0)) MAX_TILES).1
      = ⟨0, 0, false, false⟩ := by
  have h : tile_search (List.replicate 16 1)
      ((List.replicate 1024 (List.replicate 16 0)).take MAX_TILES) = none := by decide
  exact ⟨h, (tile_table_overflow_silent _ _ h).1⟩

/-- Distributing a right shift over a bitwise and. -/
theorem shiftRight_and (x y n : Nat) : (x &&& y) >>> n = (x >>> n) &&& (y >>> n) := by
  apply Nat.eq_of_testBit_eq
  intro i
  simp [Nat.testBit_shiftRight, Nat.testBit_and]

/-- Disjoint 5-bit fields assemble additively. -/
theorem or_fields : ∀ (r g b : Fin 32),
    ((r : Nat) ||| (((g : Nat)) <<< 5) ||| (((b : Nat)) <<< 10)) = r + 32 * g + 1024 * b := by
  decide

/-- Claim C9: `hex_to_gb` extracts bits 3..7 of each channel byte into three 5-bit fields
packed `r + 32*g + 1024*b`; the result is below 32768 with every channel at most 31, and
it depends only on `hex &&& 0xF8F8F8` — not on the fourth byte or the low 3 channel bits. -/
theorem hex_to_gb_props (hex : Nat) :
    hex_to_gb hex < 32768 ∧
    (∃ r g b : Nat, r ≤ 31 ∧ g ≤ 31 ∧ b ≤ 31 ∧ hex_to_gb hex = r + 32 * g + 1024 * b) ∧
    hex_to_gb hex = hex_to_gb (hex &&& 0xF8F8F8) := by
  have hr : (hex >>> 3) &&& 0x1F < 32 := Nat.lt_succ_of_le Nat.and_le_right
  have hg : (hex >>> 11) &&& 0x1F < 32 := Nat.lt_succ_of_le Nat.and_le_right
  have hb : (hex >>> 19) &&& 0x1F < 32 := Nat.lt_succ_of_le Nat.and_le_right
  have hval : hex_to_gb hex = ((hex >>> 3) &&& 0x1F) + 32 * ((hex >>> 11) &&& 0x1F)
      + 1024 * ((hex >>> 19) &&& 0x1F) := or_fields ⟨_, hr⟩ ⟨_, hg⟩ ⟨_, hb⟩
  have hm3 : ((hex &&& 0xF8F8F8) >>> 3) &&& 0x1F = (hex >>> 3) &&& 0x1F := by
    rw [shiftRight_and, Nat.and_assoc]
    congr 1
  have hm11 : ((hex &&& 0xF8F8F8) >>> 11) &&& 0x1F = (hex >>> 11) &&& 0x1F := by
    rw [shiftRight_and, Nat.and_assoc]
    congr 1
  have hm19 : ((hex &&& 0xF8F8F8) >>> 19) &&& 0x1F = (hex >>> 19) &&& 0x1F := by
    rw [shiftRight_and, Nat.and_assoc]
    congr 1
  refine ⟨?_, ⟨_, _, _, Nat.and_le_right, Nat.and_le_right, Nat.and_le_right, hval⟩, ?_⟩
  · have h1 : (hex >>> 3) &&& 0x1F ≤ 31 := Nat.and_le_right
    have h2 : (hex >>> 11) &&& 0x1F ≤ 31 := Nat.and_le_right
    have h3 : (hex >>> 19) &&& 0x1F ≤ 31 := Nat.and_le_right
    omega
  · unfold hex_to_gb
    rw [hm3, hm11, hm19]

/-- Reversing a byte's bits twice is the identity, within the uint8 range. -/
theorem flip_byte_flip_byte (v : Nat) (h : v < 256) : flip_byte (flip_byte v) = v := by
  have key : ∀ w : Fin 256, flip_byte (flip_byte w.val) = w.val := by decide
  exact key ⟨v, h⟩

/-- Horizontally flipping a tile of bytes twice is the identity. -/
theorem flip_tile_horizontal_invol (t : List Nat) (h : ∀ b ∈ t, b < 256) :
    flip_tile_horizontal (flip_tile_horizontal t) = t := by
  unfold flip_tile_horizontal
  rw [List.map_map]
  have key : ∀ b ∈ t, (flip_byte ∘ flip_byte) b = id b := fun b hb => flip_byte_flip_byte b (h b hb)
  rw [List.map_congr_left key, List.map_id]

/-- Claim C7 amended: deduping the horizontal mirror of a tile `T` of bytes against a table
whose scanned prefix is exactly `[T]` returns index 0 and vflip = false; hflip is true
exactly when the mirror differs from `T` (for a horizontally symmetric `T` the exact-match
branch fires first and hflip is false). -/
theorem dedupe_hflip_amended (T : List Nat) (rest : List (List Nat))
    (h : ∀ b ∈ T, b < 256) :
    (tile_in_list (flip_tile_horizontal T) (T :: rest) 1).1.data_idx = 0 ∧
    (tile_in_list (flip_tile_horizontal T) (T :: rest) 1).1.vflip = false ∧
    (tile_in_list (flip_tile_horizontal T) (T :: rest) 1).1.hflip
      = !(tiles_equal (flip_tile_horizontal T) T) := by
  have htake : (T :: rest).take 1 = [T] := by simp
  by_cases he : flip_tile_horizontal T = T
  · simp [tile_in_list, htake, tile_search, tile_match, tiles_equal, he]
  · have h2 : flip_tile_horizontal (flip_tile_horizontal T) = T := flip_tile_horizontal_invol T h
    simp [tile_in_list, htake, tile_search, tile_match, tiles_equal, he, h2]

/-- Witness for `dedupe_hflip_amended` at a concrete asymmetric tile. -/
theorem dedupe_hflip_amended_witness :
    (∀ b ∈ List.replicate 16 1, b < 256) ∧
    ((tile_in_list (flip_tile_horizontal (List.replicate 16 1)) (List.replicate 16 1 :: []) 1).1.data_idx = 0 ∧
     (tile_in_list (flip_tile_horizontal (List.replicate 16 1)) (List.replicate 16 1 :: []) 1).1.vflip = false ∧
     (tile_in_list (flip_tile_horizontal (List.replicate 16 1)) (List.replicate 16 1 :: []) 1).1.hflip
       = !(tiles_equal (flip_tile_horizontal (List.replicate 16 1)) (List.replicate 16 1))) :=
  ⟨by decide, dedupe_hflip_amended (List.replicate 16 1) [] (by decide)⟩

/-- The encoder row splits into the two plane-byte packing folds. -/
theorem encode_row_eq (c : Nat → Int) :
    encode_row c
      = (pack (list8 (fun x => intBit0 (c x))), pack (list8 (fun x => intBit1 (c x)))) := rfl

/-- Bit `7 - k` of a packed plane byte of 8 bits is the `k`-th packed bit. -/
theorem pack_bits_extract : ∀ (b0 b1 b2 b3 b4 b5 b6 b7 : Fin 2) (k : Fin 8),
    (pack [b0.val, b1.val, b2.val, b3.val, b4.val, b5.val, b6.val, b7.val] >>> (7 - k.val)) &&& 1
      = [b0.val, b1.val, b2.val, b3.val, b4.val, b5.val, b6.val, b7.val].getD k.val 0 := by
  decide

/-- Entry lookup in an 8-element function list. -/
theorem list8_getD (h : Nat → Nat) (x : Nat) (hx : x < 8) : (list8 h).getD x 0 = h x := by
  interval_cases x <;> rfl

/-- The two's complement bit-0 extraction produces a bit. -/
theorem intBit0_lt (c : Int) : intBit0 c < 2 := by
  unfold intBit0
  omega

/-- The two's complement bit-1 extraction produces a bit. -/
theorem intBit1_lt (c : Int) : intBit1 c < 2 := by
  unfold intBit1
  omega

/-- Extracting bit `7 - x` of a packed plane byte of bits recovers bit `x`. -/
theorem pack_extract (h : Nat → Nat) (hb : ∀ i, h i < 2) (x : Nat) (hx : x < 8) :
    (pack (list8 h) >>> (7 - x)) &&& 1 = h x := by
  have t : (pack (list8 h) >>> (7 - x)) &&& 1 = (list8 h).getD x 0 :=
    pack_bits_extract ⟨h 0, hb 0⟩ ⟨h 1, hb 1⟩ ⟨h 2, hb 2⟩ ⟨h 3, hb 3⟩
      ⟨h 4, hb 4⟩ ⟨h 5, hb 5⟩ ⟨h 6, hb 6⟩ ⟨h 7, hb 7⟩ ⟨x, hx⟩
  rw [list8_getD h x hx] at t
  exact t

/-- A non-`-1` result of `colour_in_palette` is an index 0..3 whose palette byte pair is
exactly the pixel's native colour, little-endian. -/
theorem colour_in_palette_found (hex : Nat) (palette : List Nat)
    (h : colour_in_palette hex palette ≠ -1) :
    0 ≤ colour_in_palette hex palette ∧ colour_in_palette hex palette < 4 ∧
    palette.getD (2 * (colour_in_palette hex palette).toNat) 0 = (hex_to_gb hex &&& 0xFF) ∧
    palette.getD (2 * (colour_in_palette hex palette).toNat + 1) 0 = (hex_to_gb hex >>> 8) := by
  unfold colour_in_palette at h ⊢
  split_ifs at h ⊢ with h0 h1 h2 h3
  · exact ⟨by norm_num, by norm_num, h0.1, h0.2⟩
  · exact ⟨by norm_num, by norm_num, h1.1, h1.2⟩
  · exact ⟨by norm_num, by norm_num, h2.1, h2.2⟩
  · exact ⟨by norm_num, by norm_num, h3.1, h3.2⟩
  · exact absurd rfl h

/-- Recombining the two extracted bits of a small index. -/
theorem intBit_recombine (c : Int) (h0 : 0 ≤ c) (h4 : c < 4) :
    intBit0 c + 2 * intBit1 c = c.toNat := by
  interval_cases c <;> decide

/-- Claim C6: for a block whose every pixel's native colour occurs in the assigned
palette, decoding any pixel's 2-bit index back out of the 16 encoded bytes and through
that palette recovers exactly the quantized native colour of the original pixel. -/
theorem encode_decode_roundtrip (px : Nat → Nat → Nat) (palette : List Nat)
    (hfound : ∀ y x, y < 8 → x < 8 → colour_in_palette (px y x) palette ≠ -1)
    (x y : Nat) (hx : x < 8) (hy : y < 8) :
    decode_pixel (encode_tile px palette) palette x y = hex_to_gb (px y x) := by
  have hl : (encode_tile px palette).getD (2 * y) 0
      = (encode_row (fun x2 => colour_in_palette (px y x2) palette)).1 := by
    interval_cases y <;> rfl
  have hu : (encode_tile px palette).getD (2 * y + 1) 0
      = (encode_row (fun x2 => colour_in_palette (px y x2) palette)).2 := by
    interval_cases y <;> rfl
  obtain ⟨hc0, hc4, hlo, hhi⟩ := colour_in_palette_found (px y x) palette (hfound y x hy hx)
  have hbit0 : ((encode_row (fun x2 => colour_in_palette (px y x2) palette)).1 >>> (7 - x)) &&& 1
      = intBit0 (colour_in_palette (px y x) palette) := by
    rw [encode_row_eq]
    exact pack_extract (fun x2 => intBit0 (colour_in_palette (px y x2) palette))
      (fun i => intBit0_lt _) x hx
  have hbit1 : ((encode_row (fun x2 => colour_in_palette (px y x2) palette)).2 >>> (7 - x)) &&& 1
      = intBit1 (colour_in_palette (px y x) palette) := by
    rw [encode_row_eq]
    exact pack_extract (fun x2 => intBit1 (colour_in_palette (px y x2) palette))
      (fun i => intBit1_lt _) x hx
  unfold decode_pixel
  rw [hl, hu, hbit0, hbit1, intBit_recombine _ hc0 hc4]
  show palette.getD (2 * (colour_in_palette (px y x) palette).toNat) 0
    + 256 * palette.getD (2 * (colour_in_palette (px y x) palette).toNat + 1) 0
    = hex_to_gb (px y x)
  rw [hlo, hhi]
  have hmod : hex_to_gb (px y x) &&& 0xFF = hex_to_gb (px y x) % 256 := by
    have hpow := Nat.and_pow_two_sub_one_eq_mod (hex_to_gb (px y x)) 8
    norm_num at hpow
    exact hpow
  rw [hmod, Nat.shiftRight_eq_div_pow]
  norm_num
  exact Nat.mod_add_div (hex_to_gb (px y x)) 256

/-- Witness for `encode_decode_roundtrip` at a concrete block and palette. -/
theorem encode_decode_roundtrip_witness :
    decode_pixel (encode_tile (fun _ _ => 0) [0, 0, 0, 0, 0, 0, 0, 0])
      [0, 0, 0, 0, 0, 0, 0, 0] 0 0 = hex_to_gb 0 :=
  encode_decode_roundtrip (fun _ _ => 0) [0, 0, 0, 0, 0, 0, 0, 0]
    (fun _ _ _ _ => (by decide : colour_in_palette 0 [0, 0, 0, 0, 0, 0, 0, 0] ≠ -1))
    0 0 (by decide) (by decide)

/-- Membership in a partially filled colours array: a stored colour, or the zero fill. -/
theorem mem_slots4 (front : List Nat) (p : Nat) :
    p ∈ slots4 front ↔ p ∈ front ∨ (front.length < 4 ∧ p = 0) := by
  unfold slots4
  simp only [List.mem_append, List.mem_replicate]
  constructor
  · rintro (h | ⟨hne, hp⟩)
    · exact Or.inl h
    · exact Or.inr ⟨by omega, hp⟩
  · rintro (h | ⟨hlt, hp⟩)
    · exact Or.inl h
    · exact Or.inr ⟨by omega, hp⟩

/-- Setting the next free entry of a partially filled colours array appends the colour. -/
theorem slots4_set (front : List Nat) (p : Nat) (h : front.length < 4) :
    (slots4 front).set front.length p = slots4 (front ++ [p]) := by
  unfold slots4
  obtain ⟨k, hk⟩ : ∃ k, 4 - front.length = k + 1 := ⟨3 - front.length, by omega⟩
  rw [List.set_append_right _ _ (Nat.le_refl _), Nat.sub_self, hk, List.replicate_succ]
  have hk2 : 4 - (front ++ [p]).length = k := by simp; omega
  rw [hk2]
  simp

/-- A full colours array has no zero fill. -/
theorem slots4_full (front : List Nat) (h : front.length = 4) : slots4 front = front := by
  unfold slots4
  rw [h]
  simp

/-- With at most 4 distinct pixel values the collection loop cannot fail. -/
theorem collect_go_ok_of_card (tx ty : Nat) (S : Finset Nat) :
    ∀ (rest front : List Nat), front.length ≤ 4 → front.Nodup →
      (∀ c ∈ front, c ∈ S) → (∀ p ∈ rest, p ∈ S) → S.card ≤ 4 →
      ∃ r, collect_go tx ty rest (slots4 front) front.length = Except.ok r := by
  intro rest
  induction rest with
  | nil =>
    intro front _ _ _ _ _
    exact ⟨_, rfl⟩
  | cons p ps ih =>
    intro front hlen hnd hmem hrest hcard
    rw [collect_go]
    by_cases hp : p ∈ slots4 front
    · rw [if_pos hp]
      exact ih front hlen hnd hmem (fun q hq => hrest q (List.mem_cons_of_mem _ hq)) hcard
    · rw [if_neg hp]
      have hpf : p ∉ front := fun hc => hp ((mem_slots4 front p).mpr (Or.inl hc))
      by_cases h4 : front.length = 4
      · exfalso
        have hsub : insert p front.toFinset ⊆ S := by
          intro q hq
          rcases Finset.mem_insert.mp hq with rfl | hq2
          · exact hrest q (List.mem_cons_self _ _)
          · exact hmem q (List.mem_toFinset.mp hq2)
        have hcard5 : (insert p front.toFinset).card = 5 := by
          rw [Finset.card_insert_of_not_mem (fun hc => hpf (List.mem_toFinset.mp hc)),
            List.toFinset_card_of_nodup hnd, h4]
        have hle := Finset.card_le_card hsub
        omega
      · rw [if_neg h4]
        have hlt : front.length < 4 := by omega
        rw [slots4_set front p hlt]
        have hlen2 : front.length + 1 = (front ++ [p]).length := by simp
        rw [hlen2]
        refine ih (front ++ [p]) (by simp; omega) ?_ ?_
          (fun q hq => hrest q (List.mem_cons_of_mem _ hq)) hcard
        · rw [List.nodup_append]
          exact ⟨hnd, List.nodup_singleton p, fun x hx hxp => hpf (List.mem_singleton.mp hxp ▸ hx)⟩
        · intro c hc
          rcases List.mem_append.mp hc with hc2 | hc2
          · exact hmem c hc2
          · rw [List.mem_singleton.mp hc2]
            exact hrest p (List.mem_cons_self _ _)

/-- In a zero-free run, a successful collection ends in a front containing every visited
pixel value and every previously stored colour, still at most 4 long. -/
theorem collect_go_ok_mem (tx ty : Nat) :
    ∀ (rest front : List Nat), front.length ≤ 4 → (0 : Nat) ∉ rest →
      ∀ r, collect_go tx ty rest (slots4 front) front.length = Except.ok r →
      ∃ ffront : List Nat, r = (slots4 ffront, ffront.length) ∧ ffront.length ≤ 4 ∧
        (∀ c ∈ front, c ∈ ffront) ∧ (∀ p ∈ rest, p ∈ ffront) := by
  intro rest
  induction rest with
  | nil =>
    intro front hlen _ r hr
    rw [collect_go] at hr
    refine ⟨front, ?_, hlen, fun c hc => hc, by simp⟩
    cases hr
    rfl
  | cons p ps ih =>
    intro front hlen hz r hr
    rw [collect_go] at hr
    by_cases hp : p ∈ slots4 front
    · rw [if_pos hp] at hr
      have hpf : p ∈ front := by
        rcases (mem_slots4 front p).mp hp with h | ⟨_, rfl⟩
        · exact h
        · exact absurd (List.mem_cons_self _ _) hz
      obtain ⟨ff, hre, hfl, hsub, hmem⟩ :=
        ih front hlen (fun hc => hz (List.mem_cons_of_mem _ hc)) r hr
      refine ⟨ff, hre, hfl, hsub, fun q hq => ?_⟩
      rcases List.mem_cons.mp hq with rfl | hq2
      · exact hsub _ hpf
      · exact hmem _ hq2
    · rw [if_neg hp] at hr
      by_cases h4 : front.length = 4
      · rw [if_pos h4] at hr
        cases hr
      · rw [if_neg h4] at hr
        rw [slots4_set front p (by omega)] at hr
        have hlen2 : front.length + 1 = (front ++ [p]).length := by simp
        rw [hlen2] at hr
        obtain ⟨ff, hre, hfl, hsub, hmem⟩ :=
          ih (front ++ [p]) (by simp; omega) (fun hc => hz (List.mem_cons_of_mem _ hc)) r hr
        refine ⟨ff, hre, hfl, fun c hc => hsub c (List.mem_append_left _ hc), fun q hq => ?_⟩
        rcases List.mem_cons.mp hq with rfl | hq2
        · exact hsub q (List.mem_append_right _ (List.mem_singleton.mpr rfl))
        · exact hmem _ hq2

/-- A collection failure reports the block coordinates and 5 pairwise distinct pixel
values occurring in the block. -/
theorem collect_go_error_payload (tx ty : Nat) (P : List Nat) :
    ∀ (rest front : List Nat), front.length ≤ 4 → front.Nodup →
      (∀ c ∈ front, c ∈ P) → (∀ q ∈ rest, q ∈ P) →
      ∀ a b cs p, collect_go tx ty rest (slots4 front) front.length = Except.error (a, b, cs, p) →
        a = tx ∧ b = ty ∧ cs.length = 4 ∧ (cs ++ [p]).Nodup ∧ ∀ c ∈ cs ++ [p], c ∈ P := by
  intro rest
  induction rest with
  | nil =>
    intro front _ _ _ _ a b cs p hr
    rw [collect_go] at hr
    cases hr
  | cons q qs ih =>
    intro front hlen hnd hmem hrest a b cs p hr
    rw [collect_go] at hr
    by_cases hq : q ∈ slots4 front
    · rw [if_pos hq] at hr
      exact ih front hlen hnd hmem (fun w hw => hrest w (List.mem_cons_of_mem _ hw)) a b cs p hr
    · rw [if_neg hq] at hr
      have hqf : q ∉ front := fun hc => hq ((mem_slots4 front q).mpr (Or.inl hc))
      by_cases h4 : front.length = 4
      · rw [if_pos h4] at hr
        rw [slots4_full front h4] at hr
        cases hr
        refine ⟨rfl, rfl, h4, ?_, ?_⟩
        · rw [List.nodup_append]
          exact ⟨hnd, List.nodup_singleton _, fun x hx hxp => hqf (List.mem_singleton.mp hxp ▸ hx)⟩
        · intro c hc
          rcases List.mem_append.mp hc with hc2 | hc2
          · exact hmem c hc2
          · rw [List.mem_singleton.mp hc2]
            exact hrest _ (List.mem_cons_self _ _)
      · rw [if_neg h4] at hr
        rw [slots4_set front q (by omega)] at hr
        have hlen2 : front.length + 1 = (front ++ [q]).length := by simp
        rw [hlen2] at hr
        refine ih (front ++ [q]) (by simp; omega) ?_ ?_
          (fun w hw => hrest w (List.mem_cons_of_mem _ hw)) a b cs p hr
        · rw [List.nodup_append]
          exact ⟨hnd, List.nodup_singleton _, fun x hx hxp => hqf (List.mem_singleton.mp hxp ▸ hx)⟩
        · intro c hc
          rcases List.mem_append.mp hc with hc2 | hc2
          · exact hmem c hc2
          · rw [List.mem_singleton.mp hc2]
            exact hrest _ (List.mem_cons_self _ _)

/-- Claim C8 amended: the capacity check succeeds whenever the block holds at most 4
distinct raw truecolor values; with 5 or more distinct values it fails provided no pixel
is the raw value 0 (a 0-valued pixel can be absorbed by a zero-initialised unused colour
slot, the counterexample case); and every failure reports the block coordinates together
with 5 pairwise distinct raw pixel values occurring in the block. -/
theorem block_scan_capacity (tx ty : Nat) (pxs : List Nat) (hne : pxs ≠ []) :
    (pxs.toFinset.card ≤ 4 → ∃ r, block_scan tx ty pxs = Except.ok r) ∧
    ((0 : Nat) ∉ pxs → 5 ≤ pxs.toFinset.card → ∃ e, block_scan tx ty pxs = Except.error e) ∧
    (∀ a b cs p, block_scan tx ty pxs = Except.error (a, b, cs, p) →
      a = tx ∧ b = ty ∧ cs.length = 4 ∧ (cs ++ [p]).Nodup ∧ ∀ c ∈ cs ++ [p], c ∈ pxs) := by
  have hhead : pxs.headD 0 ∈ pxs := by
    cases pxs with
    | nil => exact absurd rfl hne
    | cons a t => simp
  have hbs : block_scan tx ty pxs
      = collect_go tx ty pxs (slots4 [pxs.headD 0]) [pxs.headD 0].length := rfl
  refine ⟨?_, ?_, ?_⟩
  · intro hcard
    rw [hbs]
    refine collect_go_ok_of_card tx ty pxs.toFinset pxs [pxs.headD 0] (by simp) (by simp)
      ?_ (fun p hp => List.mem_toFinset.mpr hp) hcard
    intro c hc
    rw [List.mem_singleton.mp hc]
    exact List.mem_toFinset.mpr hhead
  · intro hz hcard
    cases hex : block_scan tx ty pxs with
    | error e => exact ⟨e, rfl⟩
    | ok r =>
      exfalso
      rw [hbs] at hex
      obtain ⟨ff, _, hfl, _, hmem⟩ := collect_go_ok_mem tx ty pxs [pxs.headD 0] (by simp) hz r hex
      have hsubset : pxs.toFinset ⊆ ff.toFinset := fun q hq =>
        List.mem_toFinset.mpr (hmem q (List.mem_toFinset.mp hq))
      have hle := Finset.card_le_card hsubset
      have hle2 : ff.toFinset.card ≤ ff.length := List.toFinset_card_le ff
      omega
  · intro a b cs p hp
    rw [hbs] at hp
    refine collect_go_error_payload tx ty pxs pxs [pxs.headD 0] (by simp) (by simp)
      ?_ (fun q hq => hq) a b cs p hp
    intro c hc
    rw [List.mem_singleton.mp hc]
    exact hhead

/-- Witness for `block_scan_capacity` at a concrete one-colour block. -/
theorem block_scan_capacity_witness :
    ((([7] : List Nat).toFinset.card ≤ 4 → ∃ r, block_scan 0 0 [7] = Except.ok r) ∧
     ((0 : Nat) ∉ ([7] : List Nat) → 5 ≤ ([7] : List Nat).toFinset.card →
       ∃ e, block_scan 0 0 [7] = Except.error e) ∧
     (∀ a b cs p, block_scan 0 0 [7] = Except.error (a, b, cs, p) →
       a = 0 ∧ b = 0 ∧ cs.length = 4 ∧ (cs ++ [p]).Nodup ∧ ∀ c ∈ cs ++ [p], c ∈ ([7] : List Nat))) :=
  block_scan_capacity 0 0 [7] (by decide)

/-- The colours stored in a slot's first four entries survive a `slot_try`. -/
theorem slot_try_take4_mono (cols : List (Nat × Nat)) :
    ∀ (s : List (Nat × Nat)) (c : Nat × Nat), c ∈ s.take 4 → c ∈ (slot_try cols s).2.take 4 := by
  induction cols with
  | nil => intro s c hc; exact hc
  | cons d rest ih =>
    intro s c hc
    simp only [slot_try]
    by_cases hd : d ∈ s.take 4
    · rw [if_pos hd]
      exact ih s c hc
    · rw [if_neg hd]
      by_cases hl : s.length < 4
      · rw [if_pos hl]
        refine ih (s ++ [d]) c ?_
        rw [List.take_append_eq_append_take]
        exact List.mem_append_left _ hc
      · rw [if_neg hl]
        exact hc

/-- A freshly appended colour sits in the slot's first four entries. -/
theorem mem_take4_append (s : List (Nat × Nat)) (d : Nat × Nat) (hl : s.length < 4) :
    d ∈ (s ++ [d]).take 4 := by
  rw [List.take_append_eq_append_take]
  obtain ⟨k, hk⟩ : ∃ k, 4 - s.length = k + 1 := ⟨3 - s.length, by omega⟩
  rw [hk]
  exact List.mem_append_right _ (by simp)

/-- A successful `slot_try` leaves every block colour among the first four entries. -/
theorem slot_try_success_mem (cols : List (Nat × Nat)) :
    ∀ s, (slot_try cols s).1 = true → ∀ c ∈ cols, c ∈ (slot_try cols s).2.take 4 := by
  induction cols with
  | nil =>
    intro s _ c hc
    cases hc
  | cons d rest ih =>
    intro s hs c hc
    simp only [slot_try] at hs ⊢
    by_cases hd : d ∈ s.take 4
    · rw [if_pos hd] at hs ⊢
      rcases List.mem_cons.mp hc with rfl | hc2
      · exact slot_try_take4_mono rest s c hd
      · exact ih s hs c hc2
    · rw [if_neg hd] at hs ⊢
      by_cases hl : s.length < 4
      · rw [if_pos hl] at hs ⊢
        rcases List.mem_cons.mp hc with rfl | hc2
        · exact slot_try_take4_mono rest (s ++ [c]) c (mem_take4_append s c hl)
        · exact ih (s ++ [d]) hs c hc2
      · rw [if_neg hl] at hs
        cases hs

/-- When every colour is already stored, `slot_try` changes nothing and succeeds. -/
theorem slot_try_all_found (cols : List (Nat × Nat)) :
    ∀ s, (∀ c ∈ cols, c ∈ s.take 4) → slot_try cols s = (true, s) := by
  induction cols with
  | nil => intro s _; rfl
  | cons d rest ih =>
    intro s h
    simp only [slot_try]
    rw [if_pos (h d (List.mem_cons_self _ _))]
    exact ih s (fun c hc => h c (List.mem_cons_of_mem _ hc))

/-- A rejected slot rejects the same colour list again, unchanged. -/
theorem slot_try_fail_idem (cols : List (Nat × Nat)) :
    ∀ s, (slot_try cols s).1 = false →
      slot_try cols (slot_try cols s).2 = (false, (slot_try cols s).2) := by
  induction cols with
  | nil =>
    intro s hs
    simp [slot_try] at hs
  | cons d rest ih =>
    intro s hs
    by_cases hd : d ∈ s.take 4
    · have he : slot_try (d :: rest) s = slot_try rest s := by
        simp only [slot_try]
        rw [if_pos hd]
      rw [he] at hs ⊢
      have hd2 : d ∈ (slot_try rest s).2.take 4 := slot_try_take4_mono rest s d hd
      have he2 : slot_try (d :: rest) (slot_try rest s).2 = slot_try rest (slot_try rest s).2 := by
        simp only [slot_try]
        rw [if_pos hd2]
      rw [he2]
      exact ih s hs
    · by_cases hl : s.length < 4
      · have he : slot_try (d :: rest) s = slot_try rest (s ++ [d]) := by
          simp only [slot_try]
          rw [if_neg hd, if_pos hl]
        rw [he] at hs ⊢
        have hd2 : d ∈ (slot_try rest (s ++ [d])).2.take 4 :=
          slot_try_take4_mono rest (s ++ [d]) d (mem_take4_append s d hl)
        have he2 : slot_try (d :: rest) (slot_try rest (s ++ [d])).2
            = slot_try rest (slot_try rest (s ++ [d])).2 := by
          simp only [slot_try]
          rw [if_pos hd2]
        rw [he2]
        exact ih (s ++ [d]) hs
      · have he : slot_try (d :: rest) s = (false, s) := by
          simp only [slot_try]
          rw [if_neg hd, if_neg hl]
        rw [he]
        simpa using he

/-- Scanning the already-mutated slot list again gives the same result and state. -/
theorem palette_scan_idem (cols : List (Nat × Nat)) :
    ∀ slots, palette_scan cols (palette_scan cols slots).2 = palette_scan cols slots := by
  intro slots
  induction slots with
  | nil => rfl
  | cons s rest ih =>
    by_cases ht : (slot_try cols s).1 = true
    · have he : palette_scan cols (s :: rest) = (some 0, (slot_try cols s).2 :: rest) := by
        simp only [palette_scan]
        rw [if_pos ht]
      rw [he]
      have ht2 : slot_try cols (slot_try cols s).2 = (true, (slot_try cols s).2) :=
        slot_try_all_found cols _ (slot_try_success_mem cols s ht)
      show palette_scan cols ((slot_try cols s).2 :: rest) = _
      simp only [palette_scan]
      rw [ht2]
      simp
    · have hf : (slot_try cols s).1 = false := by
        revert ht
        cases (slot_try cols s).1 <;> simp
      have he : palette_scan cols (s :: rest)
          = ((palette_scan cols rest).1.map (fun i => i + 1),
             (slot_try cols s).2 :: (palette_scan cols rest).2) := by
        simp only [palette_scan]
        rw [if_neg (by simp [hf])]
      rw [he]
      show palette_scan cols ((slot_try cols s).2 :: (palette_scan cols rest).2) = _
      simp only [palette_scan]
      have ht2 := slot_try_fail_idem cols s hf
      rw [ht2, ih]
      simp

/-- Calling `palette_in_list` again on the state it produced returns the same slot index
and leaves the state unchanged. -/
theorem palette_in_list_idem (cols : List (Nat × Nat)) (slots : List (List (Nat × Nat))) :
    palette_in_list cols (palette_in_list cols slots).2 = palette_in_list cols slots := by
  rcases hscan : palette_scan cols slots with ⟨o, s2⟩
  have hidem := palette_scan_idem cols slots
  rw [hscan] at hidem
  have hidem2 : palette_scan cols s2 = (o, s2) := by simpa using hidem
  cases o with
  | some i =>
    have h1 : palette_in_list cols slots = ((i : Int), s2) := by
      unfold palette_in_list
      rw [hscan]
    rw [h1]
    show palette_in_list cols s2 = ((i : Int), s2)
    unfold palette_in_list
    rw [hidem2]
  | none =>
    have h1 : palette_in_list cols slots = (-1, s2) := by
      unfold palette_in_list
      rw [hscan]
    rw [h1]
    show palette_in_list cols s2 = (-1, s2)
    unfold palette_in_list
    rw [hidem2]

/-- A match found in a scanned prefix is found, at the same index, in any extension. -/
theorem tile_search_append_some (tile : List Nat) :
    ∀ (l1 l2 : List (List Nat)) r, tile_search tile l1 = some r →
      tile_search tile (l1 ++ l2) = some r := by
  intro l1
  induction l1 with
  | nil =>
    intro l2 r h
    cases h
  | cons e es ih =>
    intro l2 r h
    simp only [tile_search] at h ⊢
    cases hm : tile_match tile e with
    | some hv =>
      simp only [hm] at h ⊢
      exact h
    | none =>
      simp only [hm, List.append_eq] at h ⊢
      cases hes : tile_search tile es with
      | none =>
        simp [hes] at h
      | some r2 =>
        rw [hes] at h
        rw [ih l2 r2 hes]
        exact h

/-- A tile matches itself exactly, so a failed scan extended by the candidate finds it at
the end with no flips. -/
theorem tile_search_append_self (tile : List Nat) :
    ∀ l1, tile_search tile l1 = none →
      tile_search tile (l1 ++ [tile]) = some (l1.length, false, false) := by
  intro l1
  induction l1 with
  | nil =>
    intro _
    simp [tile_search, tile_match, tiles_equal]
  | cons e es ih =>
    intro h
    simp only [tile_search] at h ⊢
    cases hm : tile_match tile e with
    | some hv =>
      simp [hm] at h
    | none =>
      simp only [hm] at h ⊢
      cases hes : tile_search tile es with
      | some r2 =>
        simp [hes] at h
      | none =>
        rw [List.append_eq, ih hes]
        simp

/-- Deduping the same encoded tile again, immediately after the first call and with the
tile count updated the way `main` does, returns the same record. Hypothesis: the count
does not exceed the buffer, as in every real run (`main` keeps it at most 512 of 1024). -/
theorem tile_in_list_idem (tile : List Nat) (buf : List (List Nat)) (n : Nat)
    (hn : n < buf.length) :
    (tile_in_list tile ((tile_in_list tile buf n).2)
        (max n ((tile_in_list tile buf n).1.data_idx + 1))).1
      = (tile_in_list tile buf n).1 := by
  cases hs : tile_search tile (buf.take n) with
  | some r =>
    have h1 : tile_in_list tile buf n = (⟨r.1 % 512, 0, r.2.1, r.2.2⟩, buf) := by
      simp [tile_in_list, hs]
    rw [h1]
    have htake : buf.take (max n (r.1 % 512 + 1))
        = buf.take n ++ (buf.drop n).take (max n (r.1 % 512 + 1) - n) := by
      rw [show max n (r.1 % 512 + 1) = n + (max n (r.1 % 512 + 1) - n) from by omega,
        List.take_add]
      congr 2
      omega
    have hs2 : tile_search tile (buf.take (max n (r.1 % 512 + 1))) = some r := by
      rw [htake]
      exact tile_search_append_some tile _ _ r hs
    simp [tile_in_list, hs2]
  | none =>
    have h1 : tile_in_list tile buf n = (⟨n % 512, 0, false, false⟩, buf.set n tile) := by
      simp [tile_in_list, hs]
    rw [h1]
    by_cases h512 : n < 512
    · have hmod : n % 512 = n := Nat.mod_eq_of_lt h512
      have hmax : max n (n % 512 + 1) = n + 1 := by omega
      have hlen : (buf.take n).length = n := by
        rw [List.length_take]
        omega
      have htake : (buf.set n tile).take (n + 1) = buf.take n ++ [tile] := by
        rw [List.set_eq_take_append_cons_drop, if_pos hn, List.take_append_eq_append_take,
          List.take_of_length_le (by omega), hlen]
        simp
      have hs2 : tile_search tile ((buf.set n tile).take (max n (n % 512 + 1)))
          = some (n, false, false) := by
        rw [hmax, htake]
        have := tile_search_append_self tile (buf.take n) hs
        rw [hlen] at this
        exact this
      simp [tile_in_list, hs2]
    · have hmax : max n (n % 512 + 1) = n := by
        have := Nat.mod_lt n (y := 512) (by norm_num)
        omega
      have hlen : (buf.take n).length = n := by
        rw [List.length_take]
        omega
      have htake : (buf.set n tile).take n = buf.take n := by
        rw [List.set_eq_take_append_cons_drop, if_pos hn, List.take_append_of_le_length (by omega),
          List.take_of_length_le (by omega)]
      have hs2 : tile_search tile ((buf.set n tile).take n) = none := by
        rw [htake]
        exact hs
      simp [tile_in_list, hs2, hmax]

/-- Claim C10: feeding the same block twice in immediate succession through palette
allocation, tile encoding with the resulting (frozen) palette, and deduplication — with
the tile count updated between the calls the way `main` does — yields the same
`(palette_idx, data_idx, hflip, vflip)` quadruple both times. -/
theorem process_block_idempotent (cols : List (Nat × Nat)) (slots : List (List (Nat × Nat)))
    (px : Nat → Nat → Nat) (pals : List (List Nat)) (buf : List (List Nat)) (n : Nat)
    (hn : n < buf.length) :
    (palette_idx_store (palette_in_list cols (palette_in_list cols slots).2).1,
     (tile_in_list
        (encode_tile px (pals.getD
          (palette_idx_store (palette_in_list cols (palette_in_list cols slots).2).1) []))
        ((tile_in_list (encode_tile px (pals.getD
          (palette_idx_store (palette_in_list cols slots).1) [])) buf n).2)
        (max n ((tile_in_list (encode_tile px (pals.getD
          (palette_idx_store (palette_in_list cols slots).1) [])) buf n).1.data_idx + 1))).1)
      = (palette_idx_store (palette_in_list cols slots).1,
         (tile_in_list (encode_tile px (pals.getD
           (palette_idx_store (palette_in_list cols slots).1) [])) buf n).1) := by
  rw [palette_in_list_idem cols slots]
  rw [tile_in_list_idem
    (encode_tile px (pals.getD (palette_idx_store (palette_in_list cols slots).1) []))
    buf n hn]

/-- Witness for `process_block_idempotent` at a concrete block, palette and table state. -/
theorem process_block_idempotent_witness :
    0 < ([List.replicate 16 0] : List (List Nat)).length ∧
    (palette_idx_store (palette_in_list [(1, 0)]
        (palette_in_list [(1, 0)] (List.replicate 8 [])).2).1,
     (tile_in_list
        (encode_tile (fun _ _ => 0) ([[0, 0, 0, 0, 0, 0, 0, 0]].getD
          (palette_idx_store (palette_in_list [(1, 0)]
            (palette_in_list [(1, 0)] (List.replicate 8 [])).2).1) []))
        ((tile_in_list (encode_tile (fun _ _ => 0) ([[0, 0, 0, 0, 0, 0, 0, 0]].getD
          (palette_idx_store (palette_in_list [(1, 0)] (List.replicate 8 [])).1) []))
          [List.replicate 16 0] 0).2)
        (max 0 ((tile_in_list (encode_tile (fun _ _ => 0) ([[0, 0, 0, 0, 0, 0, 0, 0]].getD
          (palette_idx_store (palette_in_list [(1, 0)] (List.replicate 8 [])).1) []))
          [List.replicate 16 0] 0).1.data_idx + 1))).1)
      = (palette_idx_store (palette_in_list [(1, 0)] (List.replicate 8 [])).1,
         (tile_in_list (encode_tile (fun _ _ => 0) ([[0, 0, 0, 0, 0, 0, 0, 0]].getD
           (palette_idx_store (palette_in_list [(1, 0)] (List.replicate 8 [])).1) []))
           [List.replicate 16 0] 0).1) :=
  ⟨by decide, process_block_idempotent [(1, 0)] (List.replicate 8 []) (fun _ _ => 0)
    [[0, 0, 0, 0, 0, 0, 0, 0]] [List.replicate 16 0] 0 (by decide)⟩
